import Mathlib

/-!
A shallow embedding of `prov/efa/src/efa_cq.c` (the EFA provider's completion
queue core of libfabric) and proofs about it.

Modelling conventions:
  - Machine integers become `Nat` (unsigned fields) or `Int` (`ssize_t`
    return values).  No overflow is relevant on any path modelled here.
  - The external ibverbs extended-poll protocol (`ibv_start_poll`,
    `ibv_next_poll`, `ibv_end_poll`) is modelled at its interface boundary:
    the hardware ring is a list of pending work completions; `start` succeeds
    exactly when the list is nonempty and positions the cursor at its head,
    failing with `ENOENT` otherwise; `next` advances the cursor, failing with
    `ENOENT` past the last entry; `end` commits consumption of every entry
    whose fields were read during the session.  The fields of the current
    entry (`status`, `wr_id`, opcode, ...) remain visible on the CQ object
    after the session ends (sticky state read by `efa_cq_readerr`).
  - External fallible calls of open/close (`calloc`, `ofi_cq_init`,
    `ibv_create_cq_ex`, `ofi_bufpool_create`, `ibv_destroy_cq`,
    `ofi_cq_cleanup`) are parameters of the model, so every branch of the C
    code is represented.
  - Lock operations and ring-protocol calls are recorded in an event trace so
    that the lock discipline and the start/end pairing are provable.
-/

namespace EfaCqModel

/-! ### errno / libfabric constants (errno.h, rdma/fi_errno.h, rdma/fabric.h) -/

def ENOENT : Int := 2

def EIO : Nat := 5

def FI_EAGAIN : Int := 11

def FI_ENOMEM : Int := 12

def FI_EINVAL : Int := 22

def FI_ENOSYS : Int := 38

def FI_EAVAIL : Int := 259

def FI_MSG : Nat := 2 ^ 1

def FI_RECV : Nat := 2 ^ 10

def FI_SEND : Nat := 2 ^ 11

/-- `FI_VERSION(major, minor)` from rdma/fabric.h: `(major << 16) | minor`. -/
def FI_VERSION (major minor : Nat) : Nat := (major <<< 16) ||| minor

def FI_MAJOR (v : Nat) : Nat := v >>> 16

def FI_MINOR (v : Nat) : Nat := v &&& 0xffff

/-- `FI_VERSION_GE(v1, v2)` from rdma/fabric.h. -/
def FI_VERSION_GE (v1 v2 : Nat) : Bool :=
  FI_MAJOR v1 > FI_MAJOR v2 ||
    (FI_MAJOR v1 == FI_MAJOR v2 && FI_MINOR v1 ≥ FI_MINOR v2)

/-! ### Work completions and opcodes -/

/-- `enum ibv_wc_opcode`, restricted view: the two opcodes this provider
handles, plus everything else (which hits the `default:` branch). -/
inductive IbvWcOpcode where
  | send
  | recv
  | other (code : Nat)
deriving DecidableEq

/-- `efa_cq_opcode_to_fi_flags` (release-build semantics): the `default:`
branch executes `assert(0); return 0;`, so with asserts compiled out the
function returns `0` there.  Whether the assert fires is tracked separately
by `efa_cq_opcode_to_fi_flags_hits_assert`. -/
def efa_cq_opcode_to_fi_flags : IbvWcOpcode → Nat
  | .send => FI_SEND ||| FI_MSG
  | .recv => FI_RECV ||| FI_MSG
  | .other _ => 0

/-- Whether `efa_cq_opcode_to_fi_flags` reaches its `assert(0)` line
(the `default:` branch) on the given opcode. -/
def efa_cq_opcode_to_fi_flags_hits_assert : IbvWcOpcode → Bool
  | .send => false
  | .recv => false
  | .other _ => true

/-- `struct ibv_wc` fields used by this core (filled by
`efa_cq_wc_from_ibv_cq_ex_unsafe`).  `status = 0` is `IBV_WC_SUCCESS`. -/
structure IbvWc where
  wr_id : Nat
  status : Nat
  opcode : IbvWcOpcode
  byte_len : Nat
  qp_num : Nat
  src_qp : Nat
  slid : Nat
  imm_data : Nat
deriving DecidableEq

/-- `efa_cq_wc_to_fi_flags`. -/
def efa_cq_wc_to_fi_flags (wc : IbvWc) : Nat :=
  efa_cq_opcode_to_fi_flags wc.opcode

/-! ### Completion entry layouts and formatters -/

/-- The three public completion-entry shapes (`struct fi_cq_entry`,
`struct fi_cq_msg_entry`, `struct fi_cq_data_entry`).  The index argument of
the C formatters is positional: entry `i` of the output buffer is element `i`
of the produced list. -/
inductive FiCompEntry where
  | context (op_context : Nat)
  | msg (op_context flags len : Nat)
  | data (op_context flags len data : Nat)
deriving DecidableEq

/-- `efa_cq_read_context_entry`. -/
def efa_cq_read_context_entry (wc : IbvWc) : FiCompEntry :=
  .context wc.wr_id

/-- `efa_cq_read_msg_entry`. -/
def efa_cq_read_msg_entry (wc : IbvWc) : FiCompEntry :=
  .msg wc.wr_id (efa_cq_wc_to_fi_flags wc) wc.byte_len

/-- `efa_cq_read_data_entry`; the C code stores `data = 0` unconditionally. -/
def efa_cq_read_data_entry (wc : IbvWc) : FiCompEntry :=
  .data wc.wr_id (efa_cq_wc_to_fi_flags wc) wc.byte_len 0

/-- The formatter bound at creation time (`cq->read_entry` function pointer),
as a tag resolved by `readEntryFn`. -/
inductive EntryLayout where
  | context
  | msg
  | data
deriving DecidableEq

def readEntryFn : EntryLayout → IbvWc → FiCompEntry
  | .context => efa_cq_read_context_entry
  | .msg => efa_cq_read_msg_entry
  | .data => efa_cq_read_data_entry

/-- Entry sizes on LP64 (`cq->entry_size`). -/
def sizeof_fi_cq_entry : Nat := 8

def sizeof_fi_cq_msg_entry : Nat := 24

def sizeof_fi_cq_data_entry : Nat := 32

/-- `sizeof(struct fi_cq_err_entry)` on LP64 (7 pointers/u64, 2 ints,
1 pointer, 1 size_t). -/
def sizeof_fi_cq_err_entry : Int := 80

/-! ### Queue state -/

/-- The extended CQ as visible to this core: the ring of pending completions,
plus the sticky current-entry fields (`status`, `wr_id`, opcode, ...) left
behind by the last poll session — `efa_cq_readerr` reads them directly from
`cq->ibv_cq_ex`. -/
structure IbvCqEx where
  pending : List IbvWc
  cur : IbvWc
deriving DecidableEq

/-- `struct efa_cq` fields used by the modelled paths.  `api_version` stands
for `cq->domain->fabric->util_fabric.fabric_fid.api_version`. -/
structure EfaCq where
  ibv_cq_ex : IbvCqEx
  read_entry : EntryLayout
  entry_size : Nat
  api_version : Nat
deriving DecidableEq

/-- `efa_cq_api_version`. -/
def efa_cq_api_version (cq : EfaCq) : Nat := cq.api_version

/-- `struct fi_cq_err_entry`.  Pointer-valued fields are modelled as `Nat`. -/
structure FiCqErrEntry where
  op_context : Nat
  flags : Nat
  len : Nat
  buf : Nat
  data : Nat
  tag : Nat
  olen : Nat
  err : Nat
  prov_errno : Nat
  err_data : Nat
  err_data_size : Nat
deriving DecidableEq

/-- Events recorded by the read paths: lock operations and ring-protocol
calls, in program order. -/
inductive Ev where
  | lock
  | unlock
  | startPoll (ok : Bool)
  | readCur
  | nextPoll
  | endPoll
deriving DecidableEq

def isLockEv : Ev → Bool
  | .lock => true
  | .unlock => true
  | _ => false

/-! ### efa_cq_readerr -/

structure ReaderrResult where
  ret : Int
  entry : FiCqErrEntry
  cq : EfaCq
  events : List Ev
deriving DecidableEq

/-- `efa_cq_readerr`: if the sticky status is unset (`!cq->ibv_cq_ex->status`)
jump to `err:` and return `-FI_EAGAIN`; otherwise fill the caller's record
from the sticky fields and return `sizeof(*entry)`.  The `err_data_size`
store is gated on `FI_VERSION_GE(api_version, FI_VERSION(1, 5))`.  Note the
function never writes to the CQ itself. -/
def efa_cq_readerr (cq : EfaCq) (entry : FiCqErrEntry) : ReaderrResult :=
  if cq.ibv_cq_ex.cur.status = 0 then
    ⟨-FI_EAGAIN, entry, cq, [.lock, .unlock]⟩
  else
    let api_version := efa_cq_api_version cq
    let e1 := { entry with
      op_context := cq.ibv_cq_ex.cur.wr_id
      flags := efa_cq_opcode_to_fi_flags cq.ibv_cq_ex.cur.opcode
      err := EIO
      prov_errno := cq.ibv_cq_ex.cur.status }
    let e2 := if FI_VERSION_GE api_version (FI_VERSION 1 5) then
      { e1 with err_data_size := 0 } else e1
    ⟨sizeof_fi_cq_err_entry, e2, cq, [.lock, .unlock]⟩

/-! ### efa_cq_readfrom -/

/-- `efa_cq_ibv_poll_error_to_fi_error`. -/
def efa_cq_ibv_poll_error_to_fi_error (err : Int) : Int :=
  if err = ENOENT then -FI_EAGAIN
  else if err > 0 then -err
  else err

/-- Result of the poll loop of `efa_cq_readfrom`: the final value of `err`
(before translation), the number of entries formatted by this loop run, the
formatted entries (positional), the source addresses written (positional,
empty when `src_addr == NULL`), the number of ring entries whose fields were
read (hence consumed once `ibv_end_poll` runs), and the emitted events. -/
structure PollResult where
  err : Int
  num_cqe : Nat
  buf : List FiCompEntry
  srcs : List Nat
  consumed : Nat
  events : List Ev
deriving DecidableEq

/-- The `while (!err && num_cqe < count)` loop of `efa_cq_readfrom`, entered
with `err = 0` and the cursor on the head of the list (the protocol
guarantees the cursor is valid whenever `err = 0`, so the `[]` arm is dead
code).  `av` abstracts `efa_av_reverse_lookup_dgram` over the AV found via
the qp table; `want_src` is `src_addr != NULL`. -/
def efa_cq_poll_loop (fmt : IbvWc → FiCompEntry) (want_src : Bool)
    (av : Nat → Nat → Nat) (count : Nat) : List IbvWc → Nat → PollResult
  | [], _ => ⟨0, 0, [], [], 0, []⟩
  | wc :: rest, num_cqe =>
    if num_cqe < count then
      if wc.status ≠ 0 then
        ⟨-FI_EAVAIL, 0, [], [], 1, [.readCur]⟩
      else
        let entry := fmt wc
        let src : List Nat := if want_src then [av wc.slid wc.src_qp] else []
        match rest with
        | [] => ⟨ENOENT, 1, [entry], src, 1, [.readCur, .nextPoll]⟩
        | w :: rs =>
          let r := efa_cq_poll_loop fmt want_src av count (w :: rs) (num_cqe + 1)
          ⟨r.err, r.num_cqe + 1, entry :: r.buf, src ++ r.srcs, r.consumed + 1,
            .readCur :: .nextPoll :: r.events⟩
    else
      ⟨0, 0, [], [], 0, []⟩

structure ReadResult where
  ret : Int
  buf : List FiCompEntry
  srcs : List Nat
  cq : EfaCq
  events : List Ev
deriving DecidableEq

/-- `efa_cq_readfrom`: lock, `ibv_start_poll` (fails with `ENOENT` on an
empty ring, in which case `should_end_poll` stays false and the loop is
skipped), the poll loop, error translation, conditional `ibv_end_poll`
(committing consumption of every entry read), unlock, and
`return num_cqe ? num_cqe : err`.  The sticky current-entry fields after the
call are those of the last entry read. -/
def efa_cq_readfrom (cq : EfaCq) (count : Nat) (want_src : Bool)
    (av : Nat → Nat → Nat) : ReadResult :=
  match cq.ibv_cq_ex.pending with
  | [] =>
    let err := efa_cq_ibv_poll_error_to_fi_error ENOENT
    ⟨err, [], [], cq, [.lock, .startPoll false, .unlock]⟩
  | wc :: rest =>
    let r := efa_cq_poll_loop (readEntryFn cq.read_entry) want_src av count
      (wc :: rest) 0
    let err := efa_cq_ibv_poll_error_to_fi_error r.err
    let newCur := ((wc :: rest).take r.consumed).getLast?.getD cq.ibv_cq_ex.cur
    let cq1 := { cq with ibv_cq_ex := ⟨(wc :: rest).drop r.consumed, newCur⟩ }
    ⟨if r.num_cqe ≠ 0 then (r.num_cqe : Int) else err, r.buf, r.srcs, cq1,
      [.lock, .startPoll true] ++ r.events ++ [.endPoll, .unlock]⟩

/-! ### efa_cq_open / efa_cq_close -/

/-- `enum fi_cq_format`; `invalid` covers out-of-enum integers, which the C
`switch` sends to `default:` together with `FI_CQ_FORMAT_TAGGED`. -/
inductive FiCqFormat where
  | unspec
  | context
  | msg
  | data
  | tagged
  | invalid (code : Nat)
deriving DecidableEq

/-- `enum fi_wait_obj` as far as this core cares: `FI_WAIT_NONE` versus
anything else. -/
inductive FiWaitObj where
  | none
  | other (code : Nat)
deriving DecidableEq

/-- The `struct fi_cq_attr` fields read by `efa_cq_open`. -/
structure FiCqAttr where
  size : Nat
  format : FiCqFormat
  wait_obj : FiWaitObj
deriving DecidableEq

/-- `EFA_DEF_CQ_SIZE` from efa.h. -/
def EFA_DEF_CQ_SIZE : Nat := 1024

/-- Allocation / external-call events of `efa_cq_open`, in program order. -/
inductive OpenEv where
  | callocCq
  | cqInit
  | createCqEx (cqe : Nat)
  | bufpoolCreate
  | spinInit
  | bufpoolDestroy
  | destroyCq
  | cqCleanup
  | freeCq
deriving DecidableEq

/-- The queue configuration bound by a successful `efa_cq_open`: the ring
size handed to `ibv_create_cq_ex` and the permanently bound layout. -/
structure OpenedCq where
  cqe : Nat
  read_entry : EntryLayout
  entry_size : Nat
deriving DecidableEq

/-- Outcomes of the external calls made by `efa_cq_open`. -/
structure OpenExternals where
  calloc_ok : Bool
  cq_init_ret : Int
  create_cq_ok : Bool
  bufpool_ret : Int
deriving DecidableEq

/-- `efa_cq_open`: reject non-`FI_WAIT_NONE` wait objects before any
allocation; then `calloc`, `ofi_cq_init`, `ibv_create_cq_ex` with
`cqe = attr->size ? attr->size : EFA_DEF_CQ_SIZE`, `ofi_bufpool_create`;
then the format `switch` binding `read_entry`/`entry_size`, with
`FI_CQ_FORMAT_TAGGED` and `default:` rejected via `err_destroy_pool`; then
`ofi_spin_init` and success.  Each error path replays the C `goto` chain. -/
def efa_cq_open (attr : FiCqAttr) (ext : OpenExternals) :
    Int × Option OpenedCq × List OpenEv :=
  if attr.wait_obj ≠ FiWaitObj.none then
    (-FI_ENOSYS, none, [])
  else if !ext.calloc_ok then
    (-FI_ENOMEM, none, [.callocCq])
  else if ext.cq_init_ret ≠ 0 then
    (ext.cq_init_ret, none, [.callocCq, .cqInit, .freeCq])
  else
    let cqe := if attr.size ≠ 0 then attr.size else EFA_DEF_CQ_SIZE
    if !ext.create_cq_ok then
      (-FI_EINVAL, none, [.callocCq, .cqInit, .createCqEx cqe, .cqCleanup, .freeCq])
    else if ext.bufpool_ret ≠ 0 then
      (ext.bufpool_ret, none,
        [.callocCq, .cqInit, .createCqEx cqe, .bufpoolCreate, .destroyCq,
          .cqCleanup, .freeCq])
    else
      let pre : List OpenEv := [.callocCq, .cqInit, .createCqEx cqe, .bufpoolCreate]
      match attr.format with
      | .unspec => (0, some ⟨cqe, .context, sizeof_fi_cq_entry⟩, pre ++ [.spinInit])
      | .context => (0, some ⟨cqe, .context, sizeof_fi_cq_entry⟩, pre ++ [.spinInit])
      | .msg => (0, some ⟨cqe, .msg, sizeof_fi_cq_msg_entry⟩, pre ++ [.spinInit])
      | .data => (0, some ⟨cqe, .data, sizeof_fi_cq_data_entry⟩, pre ++ [.spinInit])
      | .tagged =>
        (-FI_ENOSYS, none, pre ++ [.bufpoolDestroy, .destroyCq, .cqCleanup, .freeCq])
      | .invalid _ =>
        (-FI_ENOSYS, none, pre ++ [.bufpoolDestroy, .destroyCq, .cqCleanup, .freeCq])

/-- Teardown events of `efa_cq_close`, in program order. -/
inductive CloseEv where
  | bufpoolDestroy
  | spinDestroy
  | destroyCq
  | cqCleanup
  | freeCq
deriving DecidableEq

/-- `efa_cq_close`: destroy the wce pool, destroy the lock, then
`ret = -ibv_destroy_cq(...)`; a nonzero `ret` returns immediately (the queue
object is never freed on that path); then `ofi_cq_cleanup`, likewise; then
`free(cq)` and return 0.  `destroy_cq_ret` is `ibv_destroy_cq`'s raw return
(0 or a positive errno); `cleanup_ret` is `ofi_cq_cleanup`'s. -/
def efa_cq_close (destroy_cq_ret : Int) (cleanup_ret : Int) :
    Int × List CloseEv :=
  let ret := -destroy_cq_ret
  if ret ≠ 0 then
    (ret, [.bufpoolDestroy, .spinDestroy, .destroyCq])
  else if cleanup_ret ≠ 0 then
    (cleanup_ret, [.bufpoolDestroy, .spinDestroy, .destroyCq, .cqCleanup])
  else
    (0, [.bufpoolDestroy, .spinDestroy, .destroyCq, .cqCleanup, .freeCq])

/-! ### Concrete fixtures used by witnesses and counterexamples -/

/-- A successful Send completion. -/
def wcSend : IbvWc := ⟨3, 0, .send, 16, 0, 0, 0, 0⟩

/-- An errored Receive completion (vendor status 12, wr_id 7). -/
def wcBad : IbvWc := ⟨7, 12, .recv, 0, 0, 0, 0, 0⟩

/-- A trivial address-resolution function. -/
def avZero : Nat → Nat → Nat := fun _ _ => 0

/-- A CQ with an empty ring and clean sticky state. -/
def cqEmpty : EfaCq := ⟨⟨[], wcSend⟩, .context, sizeof_fi_cq_entry, FI_VERSION 1 5⟩

/-- A CQ with an empty ring whose sticky current-entry fields show a
pending error. -/
def cqSticky : EfaCq := ⟨⟨[], wcBad⟩, .context, sizeof_fi_cq_entry, FI_VERSION 1 5⟩

/-- A CQ with one ready completion. -/
def cqOne : EfaCq := ⟨⟨[wcSend], wcSend⟩, .msg, sizeof_fi_cq_msg_entry, FI_VERSION 1 5⟩

/-- A CQ whose first pending completion is errored. -/
def cqBadFirst : EfaCq := ⟨⟨[wcBad], wcSend⟩, .msg, sizeof_fi_cq_msg_entry, FI_VERSION 1 5⟩

/-- A CQ with one clean completion followed by an errored one. -/
def cqBadSecond : EfaCq :=
  ⟨⟨[wcSend, wcBad], wcSend⟩, .msg, sizeof_fi_cq_msg_entry, FI_VERSION 1 5⟩

/-- An all-zero error record. -/
def errEntry0 : FiCqErrEntry := ⟨0, 0, 0, 0, 0, 0, 0, 0, 0, 0, 0⟩

/-! ### Helper lemmas about the poll loop -/

theorem poll_loop_nil_eq (fmt : IbvWc → FiCompEntry) (want_src : Bool)
    (av : Nat → Nat → Nat) (count : Nat) (n : Nat) :
    efa_cq_poll_loop fmt want_src av count [] n = ⟨0, 0, [], [], 0, []⟩ := by
  rw [efa_cq_poll_loop]

theorem poll_loop_cons_eq (fmt : IbvWc → FiCompEntry) (want_src : Bool)
    (av : Nat → Nat → Nat) (count : Nat) (wc : IbvWc) (rest : List IbvWc)
    (n : Nat) :
    efa_cq_poll_loop fmt want_src av count (wc :: rest) n =
      if n < count then
        if wc.status ≠ 0 then
          ⟨-FI_EAVAIL, 0, [], [], 1, [.readCur]⟩
        else
          match rest with
          | [] => ⟨ENOENT, 1, [fmt wc],
              (if want_src then [av wc.slid wc.src_qp] else []), 1,
              [.readCur, .nextPoll]⟩
          | w :: rs =>
            let r := efa_cq_poll_loop fmt want_src av count (w :: rs) (n + 1)
            ⟨r.err, r.num_cqe + 1, fmt wc :: r.buf,
              (if want_src then [av wc.slid wc.src_qp] else []) ++ r.srcs,
              r.consumed + 1, .readCur :: .nextPoll :: r.events⟩
      else ⟨0, 0, [], [], 0, []⟩ := by
  rw [efa_cq_poll_loop]

theorem poll_loop_events_mem (fmt : IbvWc → FiCompEntry) (want_src : Bool)
    (av : Nat → Nat → Nat) (count : Nat) :
    ∀ (pending : List IbvWc) (n : Nat) (e : Ev),
      e ∈ (efa_cq_poll_loop fmt want_src av count pending n).events →
      e = Ev.readCur ∨ e = Ev.nextPoll := by
  intro pending
  induction pending with
  | nil => intro n e he; rw [poll_loop_nil_eq] at he; simp at he
  | cons wc rest ih =>
    intro n e he
    rw [poll_loop_cons_eq] at he
    by_cases hn : n < count
    · rw [if_pos hn] at he
      by_cases hs : wc.status ≠ 0
      · rw [if_pos hs] at he
        simp at he
        exact Or.inl he
      · rw [if_neg hs] at he
        cases rest with
        | nil =>
          simp at he
          exact he
        | cons w rs =>
          dsimp only at he
          rw [List.mem_cons, List.mem_cons] at he
          rcases he with h | h | h
          · exact Or.inl h
          · exact Or.inr h
          · exact ih (n + 1) e h
    · rw [if_neg hn] at he
      simp at he

theorem poll_loop_count_eq_zero (fmt : IbvWc → FiCompEntry) (want_src : Bool)
    (av : Nat → Nat → Nat) (count : Nat) (pending : List IbvWc) (n : Nat)
    (e : Ev) (h1 : e ≠ Ev.readCur) (h2 : e ≠ Ev.nextPoll) :
    (efa_cq_poll_loop fmt want_src av count pending n).events.count e = 0 := by
  refine List.count_eq_zero.mpr (fun hmem => ?_)
  rcases poll_loop_events_mem fmt want_src av count pending n e hmem with h | h
  · exact h1 h
  · exact h2 h

theorem poll_loop_filter_lock (fmt : IbvWc → FiCompEntry) (want_src : Bool)
    (av : Nat → Nat → Nat) (count : Nat) (pending : List IbvWc) (n : Nat) :
    (efa_cq_poll_loop fmt want_src av count pending n).events.filter isLockEv
      = [] := by
  refine List.filter_eq_nil_iff.mpr (fun e hmem => ?_)
  rcases poll_loop_events_mem fmt want_src av count pending n e hmem with h | h <;>
    simp [h, isLockEv]

/-- Behaviour of the poll loop when every pending completion is successful:
it formats one entry per pending completion until the capacity is reached,
consumes exactly the formatted entries, and ends with `ENOENT` exactly when
it ran the ring dry (rather than the capacity out). -/
theorem poll_loop_clean (fmt : IbvWc → FiCompEntry) (want_src : Bool)
    (av : Nat → Nat → Nat) (count : Nat) :
    ∀ (pending : List IbvWc) (n : Nat),
      (∀ wc ∈ pending, wc.status = 0) →
      (efa_cq_poll_loop fmt want_src av count pending n).num_cqe
          = min pending.length (count - n) ∧
      (efa_cq_poll_loop fmt want_src av count pending n).buf
          = (pending.take (count - n)).map fmt ∧
      (efa_cq_poll_loop fmt want_src av count pending n).srcs
          = (if want_src then
              (pending.take (count - n)).map (fun wc => av wc.slid wc.src_qp)
             else []) ∧
      (efa_cq_poll_loop fmt want_src av count pending n).consumed
          = min pending.length (count - n) ∧
      (efa_cq_poll_loop fmt want_src av count pending n).err
          = (if pending ≠ [] ∧ n < count ∧ pending.length ≤ count - n
             then ENOENT else 0) := by
  intro pending
  induction pending with
  | nil =>
    intro n h
    simp [poll_loop_nil_eq]
  | cons wc rest ih =>
    intro n h
    have hwc : wc.status = 0 := h wc (by simp)
    have hrest : ∀ w ∈ rest, w.status = 0 := fun w hw => h w (by simp [hw])
    rw [poll_loop_cons_eq]
    by_cases hn : n < count
    · rw [if_pos hn, if_neg (show ¬wc.status ≠ 0 by simp [hwc])]
      have hsub : count - n = (count - (n + 1)) + 1 := by omega
      cases rest with
      | nil =>
        dsimp only
        refine ⟨?_, ?_, ?_, ?_, ?_⟩
        · simp only [List.length_cons, List.length_nil]
          omega
        · rw [hsub]
          simp
        · by_cases hws : want_src <;> simp [hws, hsub]
        · simp only [List.length_cons, List.length_nil]
          omega
        · have hA : (wc :: ([] : List IbvWc)) ≠ [] ∧ n < count ∧
              (wc :: ([] : List IbvWc)).length ≤ count - n := by
            refine ⟨by simp, hn, ?_⟩
            simp only [List.length_cons, List.length_nil]
            omega
          rw [if_pos hA]
      | cons w rs =>
        obtain ⟨ih1, ih2, ih3, ih4, ih5⟩ := ih (n + 1) hrest
        dsimp only
        refine ⟨?_, ?_, ?_, ?_, ?_⟩
        · rw [ih1]
          simp only [List.length_cons]
          omega
        · rw [ih2, hsub]
          simp
        · rw [ih3]
          by_cases hws : want_src <;> simp [hws, hsub]
        · rw [ih4]
          simp only [List.length_cons]
          omega
        · rw [ih5]
          by_cases hc : rs.length + 2 ≤ count - n
          · have hA : (w :: rs) ≠ [] ∧ n + 1 < count ∧
                (w :: rs).length ≤ count - (n + 1) := by
              refine ⟨by simp, by omega, ?_⟩
              simp only [List.length_cons]
              omega
            have hB : (wc :: w :: rs) ≠ [] ∧ n < count ∧
                (wc :: w :: rs).length ≤ count - n := by
              refine ⟨by simp, hn, ?_⟩
              simp only [List.length_cons]
              omega
            rw [if_pos hA, if_pos hB]
          · have hA : ¬((w :: rs) ≠ [] ∧ n + 1 < count ∧
                (w :: rs).length ≤ count - (n + 1)) := by
              rintro ⟨-, h2, h3⟩
              simp only [List.length_cons] at h3
              omega
            have hB : ¬((wc :: w :: rs) ≠ [] ∧ n < count ∧
                (wc :: w :: rs).length ≤ count - n) := by
              rintro ⟨-, -, h3⟩
              simp only [List.length_cons] at h3
              omega
            rw [if_neg hA, if_neg hB]
    · rw [if_neg hn]
      have hzero : count - n = 0 := by omega
      simp [hzero, hn]

/-- Behaviour of the poll loop when the completions at positions `0..k-1`
are successful and the one at position `k` is errored, with `k` strictly
below the remaining capacity: the loop formats exactly the `k` clean
entries, reads (hence consumes) the errored one as well, and stops with
`-FI_EAVAIL`. -/
theorem poll_loop_error_at (fmt : IbvWc → FiCompEntry) (want_src : Bool)
    (av : Nat → Nat → Nat) (count : Nat) :
    ∀ (ready : List IbvWc) (bad : IbvWc) (rest : List IbvWc) (n : Nat),
      (∀ wc ∈ ready, wc.status = 0) → bad.status ≠ 0 →
      n + ready.length < count →
      (efa_cq_poll_loop fmt want_src av count (ready ++ bad :: rest) n).err
          = -FI_EAVAIL ∧
      (efa_cq_poll_loop fmt want_src av count (ready ++ bad :: rest) n).num_cqe
          = ready.length ∧
      (efa_cq_poll_loop fmt want_src av count (ready ++ bad :: rest) n).buf
          = ready.map fmt ∧
      (efa_cq_poll_loop fmt want_src av count (ready ++ bad :: rest) n).consumed
          = ready.length + 1 := by
  intro ready
  induction ready with
  | nil =>
    intro bad rest n _ hbad hlt
    have hn : n < count := by simpa using hlt
    rw [List.nil_append, poll_loop_cons_eq, if_pos hn, if_pos hbad]
    exact ⟨rfl, rfl, rfl, rfl⟩
  | cons wc ready ih =>
    intro bad rest n h hbad hlt
    have hwc : wc.status = 0 := h wc (by simp)
    have hready : ∀ w ∈ ready, w.status = 0 := fun w hw => h w (by simp [hw])
    have hn : n < count := by simp at hlt; omega
    have hlt2 : n + 1 + ready.length < count := by simp at hlt; omega
    obtain ⟨ih1, ih2, ih3, ih4⟩ := ih bad rest (n + 1) hready hbad hlt2
    rw [List.cons_append, poll_loop_cons_eq, if_pos hn,
      if_neg (show ¬wc.status ≠ 0 by simp [hwc])]
    cases htail : ready ++ bad :: rest with
    | nil => exact absurd htail (by simp)
    | cons w rs =>
      rw [htail] at ih1 ih2 ih3 ih4
      dsimp only
      refine ⟨ih1, ?_, ?_, ?_⟩
      · rw [ih2]
        simp
      · rw [ih3]
        simp
      · rw [ih4]
        simp

/-- Taking one past a prefix keeps the prefix and the next element. -/
theorem take_length_succ_append {α : Type _} (l : List α) (a : α)
    (r : List α) : (l ++ a :: r).take (l.length + 1) = l ++ [a] := by
  induction l with
  | nil => simp
  | cons x xs ih => simp [ih]

theorem getLast?_append_singleton {α : Type _} (l : List α) (a : α) :
    (l ++ [a]).getLast? = some a := by
  induction l with
  | nil => rfl
  | cons x xs ih =>
    rw [List.cons_append, List.getLast?_cons, ih]
    rfl

/-! ### Claim C1 -/

/-- C1 counterexample: on an empty ring (`N = 0`) a zero-capacity read
returns `-FI_EAGAIN`, not 0 as the claim states for every `C = 0` call. -/
theorem C1_counterexample_zero_read_empty_ring :
    (efa_cq_readfrom cqEmpty 0 false avZero).ret ≠ 0 ∧
    (efa_cq_readfrom cqEmpty 0 false avZero).ret = -FI_EAGAIN := by
  constructor <;> decide

/-- C1 (amended): on a ring holding exactly `N` ready completions (none
errored), `efa_cq_readfrom` with capacity `C` writes exactly `min N C`
formatted entries contiguously from index 0, and returns `min N C` whenever
that is positive.  A `C = 0` call consumes no ring entry and leaves the
queue unchanged, returning 0 when the ring is nonempty — but when `N = 0`
the call returns `-FI_EAGAIN` (for every capacity, including 0), not 0. -/
theorem C1_amended_readfrom_min_count :
    ∀ (cq : EfaCq) (count : Nat) (ws : Bool) (av : Nat → Nat → Nat),
      (∀ wc ∈ cq.ibv_cq_ex.pending, wc.status = 0) →
      (efa_cq_readfrom cq count ws av).buf
          = (cq.ibv_cq_ex.pending.take count).map (readEntryFn cq.read_entry) ∧
      (efa_cq_readfrom cq count ws av).buf.length
          = min cq.ibv_cq_ex.pending.length count ∧
      (0 < min cq.ibv_cq_ex.pending.length count →
        (efa_cq_readfrom cq count ws av).ret
            = (min cq.ibv_cq_ex.pending.length count : Int)) ∧
      (cq.ibv_cq_ex.pending = [] →
        (efa_cq_readfrom cq count ws av).ret = -FI_EAGAIN) ∧
      (count = 0 → cq.ibv_cq_ex.pending ≠ [] →
        (efa_cq_readfrom cq count ws av).ret = 0) ∧
      (count = 0 → (efa_cq_readfrom cq count ws av).cq = cq) ∧
      (efa_cq_readfrom cq count ws av).cq.ibv_cq_ex.pending
          = cq.ibv_cq_ex.pending.drop
              (min cq.ibv_cq_ex.pending.length count) := by
  intro cq count ws av hclean
  obtain ⟨⟨p, c⟩, re, es, api⟩ := cq
  dsimp only at hclean ⊢
  cases p with
  | nil =>
    simp [efa_cq_readfrom, efa_cq_ibv_poll_error_to_fi_error, ENOENT]
  | cons wc rest =>
    obtain ⟨h1, h2, h3, h4, h5⟩ :=
      poll_loop_clean (readEntryFn re) ws av count (wc :: rest) 0 hclean
    simp only [Nat.sub_zero] at h1 h2 h3 h4 h5
    simp only [efa_cq_readfrom]
    refine ⟨h2, ?_, ?_, ?_, ?_, ?_, ?_⟩
    · rw [h2]
      simp only [List.length_map, List.length_take]
      omega
    · intro hpos
      rw [h1, if_pos (by omega)]
      push_cast
      rfl
    · intro h
      exact absurd h (by simp)
    · intro hc0 _
      rw [h1, if_neg (by simp [hc0]), h5]
      rw [if_neg (by rintro ⟨-, h2c, -⟩; omega)]
      simp [efa_cq_ibv_poll_error_to_fi_error, ENOENT]
    · intro hc0
      subst hc0
      have hcons : min (wc :: rest).length 0 = 0 := by simp
      rw [h4]
      simp
    · rw [h4]

/-- C1 witness: the amended theorem applied to a concrete one-entry ring
with capacity 1. -/
theorem C1_amended_witness :
    (efa_cq_readfrom cqOne 1 false avZero).ret = 1 ∧
    (efa_cq_readfrom cqOne 1 false avZero).buf.length = 1 := by
  have h := C1_amended_readfrom_min_count cqOne 1 false avZero (by decide)
  have h3 := h.2.2.1 (by decide)
  refine ⟨?_, ?_⟩
  · rw [h3]; decide
  · rw [h.2.1]; decide

/-! ### Shared facts about efa_cq_readerr -/

theorem readerr_no_error (cq : EfaCq) (e0 : FiCqErrEntry)
    (h : cq.ibv_cq_ex.cur.status = 0) :
    efa_cq_readerr cq e0 = ⟨-FI_EAGAIN, e0, cq, [Ev.lock, Ev.unlock]⟩ := by
  simp only [efa_cq_readerr, if_pos h]

theorem readerr_pending_fields (cq : EfaCq) (e0 : FiCqErrEntry)
    (h : ¬cq.ibv_cq_ex.cur.status = 0) :
    (efa_cq_readerr cq e0).ret = sizeof_fi_cq_err_entry ∧
    (efa_cq_readerr cq e0).entry.op_context = cq.ibv_cq_ex.cur.wr_id ∧
    (efa_cq_readerr cq e0).entry.flags
        = efa_cq_opcode_to_fi_flags cq.ibv_cq_ex.cur.opcode ∧
    (efa_cq_readerr cq e0).entry.err = EIO ∧
    (efa_cq_readerr cq e0).entry.prov_errno = cq.ibv_cq_ex.cur.status ∧
    (efa_cq_readerr cq e0).entry.err_data_size
        = (if FI_VERSION_GE (efa_cq_api_version cq) (FI_VERSION 1 5) then 0
           else e0.err_data_size) ∧
    (efa_cq_readerr cq e0).cq = cq ∧
    (efa_cq_readerr cq e0).events = [Ev.lock, Ev.unlock] := by
  simp only [efa_cq_readerr, if_neg h]
  by_cases hv : FI_VERSION_GE (efa_cq_api_version cq) (FI_VERSION 1 5) <;>
    simp [hv]

/-! ### Claim C2 -/

/-- C2: on a ring whose completions at positions 0..k-1 are ready and whose
k-th completion is errored (k < capacity), the read formats exactly the k
clean entries contiguously from index 0, returns k when k > 0 and surfaces
`-FI_EAVAIL` exactly when k = 0, and a subsequent `efa_cq_readerr` returns a
full record whose operation context is the errored completion's wr_id. -/
theorem C2_error_halts_loop_partial_result :
    ∀ (cq : EfaCq) (count : Nat) (ws : Bool) (av : Nat → Nat → Nat)
      (ready : List IbvWc) (bad : IbvWc) (rest : List IbvWc)
      (e0 : FiCqErrEntry),
      cq.ibv_cq_ex.pending = ready ++ bad :: rest →
      (∀ wc ∈ ready, wc.status = 0) → bad.status ≠ 0 →
      ready.length < count →
      (efa_cq_readfrom cq count ws av).buf
          = ready.map (readEntryFn cq.read_entry) ∧
      (efa_cq_readfrom cq count ws av).ret
          = (if ready.length = 0 then -FI_EAVAIL else (ready.length : Int)) ∧
      (efa_cq_readerr (efa_cq_readfrom cq count ws av).cq e0).ret
          = sizeof_fi_cq_err_entry ∧
      (efa_cq_readerr (efa_cq_readfrom cq count ws av).cq e0).entry.op_context
          = bad.wr_id := by
  intro cq count ws av ready bad rest e0 hp hclean hbad hlt
  obtain ⟨⟨p, c⟩, re, es, api⟩ := cq
  dsimp only at hp ⊢
  subst hp
  obtain ⟨l1, l2, l3, l4⟩ :=
    poll_loop_error_at (readEntryFn re) ws av count ready bad rest 0 hclean
      hbad (by omega)
  cases hr : ready ++ bad :: rest with
  | nil => exact absurd hr (by simp)
  | cons w rs =>
    rw [hr] at l1 l2 l3 l4
    have hcq1 : (efa_cq_readfrom ⟨⟨w :: rs, c⟩, re, es, api⟩ count ws av).cq
        = ⟨⟨(ready ++ bad :: rest).drop (ready.length + 1), bad⟩, re, es,
            api⟩ := by
      simp only [efa_cq_readfrom]
      rw [l4, ← hr, take_length_succ_append, getLast?_append_singleton]
      rfl
    obtain ⟨f1, f2, -, -, -, -, -, -⟩ := readerr_pending_fields
      (⟨⟨(ready ++ bad :: rest).drop (ready.length + 1), bad⟩, re, es, api⟩)
      e0 hbad
    refine ⟨?_, ?_, ?_, ?_⟩
    · simp only [efa_cq_readfrom]
      exact l3
    · simp only [efa_cq_readfrom]
      rw [l2, l1]
      by_cases hk : ready.length = 0
      · rw [if_neg (by simp [hk]), if_pos hk]
        decide
      · rw [if_pos hk, if_neg hk]
    · rw [hcq1]
      exact f1
    · rw [hcq1]
      exact f2

/-- C2 witness: a ring with one clean Send completion followed by an
errored completion, read with capacity 2. -/
theorem C2_witness :
    (efa_cq_readfrom cqBadSecond 2 false avZero).ret = 1 ∧
    (efa_cq_readerr (efa_cq_readfrom cqBadSecond 2 false avZero).cq
        errEntry0).entry.op_context = 7 := by
  have h := C2_error_halts_loop_partial_result cqBadSecond 2 false avZero
    [wcSend] wcBad [] errEntry0 rfl (by decide) (by decide) (by decide)
  refine ⟨?_, ?_⟩
  · rw [h.2.1]
    decide
  · rw [h.2.2.2]
    decide

/-! ### Claim C3 -/

/-- C3: the ring-protocol code translation maps the ENOENT sentinel to
`-FI_EAGAIN`, negates every other positive code, and passes nonpositive
codes through unchanged; consequently a read on an empty ring returns
`-FI_EAGAIN`. -/
theorem C3_error_translation_empty_ring :
    (∀ e : Int,
      (e = ENOENT → efa_cq_ibv_poll_error_to_fi_error e = -FI_EAGAIN) ∧
      (0 < e → e ≠ ENOENT → efa_cq_ibv_poll_error_to_fi_error e = -e) ∧
      (e ≤ 0 → efa_cq_ibv_poll_error_to_fi_error e = e)) ∧
    (∀ (cq : EfaCq) (count : Nat) (ws : Bool) (av : Nat → Nat → Nat),
      cq.ibv_cq_ex.pending = [] →
      (efa_cq_readfrom cq count ws av).ret = -FI_EAGAIN) := by
  constructor
  · intro e
    refine ⟨?_, ?_, ?_⟩
    · intro he
      simp only [efa_cq_ibv_poll_error_to_fi_error]
      rw [if_pos he]
    · intro hpos hne
      simp only [efa_cq_ibv_poll_error_to_fi_error]
      rw [if_neg hne, if_pos hpos]
    · intro hle
      simp only [efa_cq_ibv_poll_error_to_fi_error]
      rw [if_neg (show ¬e = ENOENT by simp only [ENOENT]; omega),
        if_neg (by omega)]
  · intro cq count ws av hp
    obtain ⟨⟨p, c⟩, re, es, api⟩ := cq
    dsimp only at hp
    subst hp
    simp [efa_cq_readfrom, efa_cq_ibv_poll_error_to_fi_error, ENOENT]

/-- C3 witness: the translation evaluated at the sentinel, at another
positive code, at a negative code, and an empty-ring read. -/
theorem C3_witness :
    efa_cq_ibv_poll_error_to_fi_error 2 = -FI_EAGAIN ∧
    efa_cq_ibv_poll_error_to_fi_error 5 = -5 ∧
    efa_cq_ibv_poll_error_to_fi_error (-7) = -7 ∧
    (efa_cq_readfrom cqEmpty 4 false avZero).ret = -FI_EAGAIN := by
  have h := C3_error_translation_empty_ring
  exact ⟨(h.1 2).1 (by decide), (h.1 5).2.1 (by decide) (by decide),
    (h.1 (-7)).2.2 (by decide), h.2 cqEmpty 4 false avZero rfl⟩

/-! ### Claim C4 -/

/-- C4: `efa_cq_readerr` returns `-FI_EAGAIN` exactly when the sticky
status is zero, leaving the caller's record untouched in that case; when an
error is pending it fills the record with the pending wr_id as context,
flags derived from the pending opcode, the fixed `EIO` code, the raw
provider status, zeroes `err_data_size` exactly when the negotiated API
version is at least 1.5 (otherwise the field keeps the caller's value), and
returns `sizeof(struct fi_cq_err_entry)`. -/
theorem C4_readerr_contract :
    ∀ (cq : EfaCq) (entry : FiCqErrEntry),
      ((efa_cq_readerr cq entry).ret = -FI_EAGAIN ↔
        cq.ibv_cq_ex.cur.status = 0) ∧
      (cq.ibv_cq_ex.cur.status = 0 →
        (efa_cq_readerr cq entry).entry = entry) ∧
      (¬cq.ibv_cq_ex.cur.status = 0 →
        (efa_cq_readerr cq entry).entry.op_context
            = cq.ibv_cq_ex.cur.wr_id ∧
        (efa_cq_readerr cq entry).entry.flags
            = efa_cq_opcode_to_fi_flags cq.ibv_cq_ex.cur.opcode ∧
        (efa_cq_readerr cq entry).entry.err = EIO ∧
        (efa_cq_readerr cq entry).entry.prov_errno
            = cq.ibv_cq_ex.cur.status ∧
        (efa_cq_readerr cq entry).entry.err_data_size
            = (if FI_VERSION_GE (efa_cq_api_version cq) (FI_VERSION 1 5)
               then 0 else entry.err_data_size) ∧
        (efa_cq_readerr cq entry).ret = sizeof_fi_cq_err_entry) := by
  intro cq entry
  by_cases h : cq.ibv_cq_ex.cur.status = 0
  · rw [readerr_no_error cq entry h]
    exact ⟨by simp [h], fun _ => rfl, fun hc => absurd h hc⟩
  · obtain ⟨f1, f2, f3, f4, f5, f6, -, -⟩ := readerr_pending_fields cq entry h
    refine ⟨?_, fun hc => absurd hc h, fun _ => ⟨f2, f3, f4, f5, f6, f1⟩⟩
    constructor
    · intro hr
      rw [f1] at hr
      exact absurd hr (by decide)
    · intro hc
      exact absurd hc h

/-- C4 witness: a clean sticky state yields `-FI_EAGAIN`; a pending error
(status 12, wr_id 7) yields the filled record and the record size. -/
theorem C4_witness :
    (efa_cq_readerr cqOne errEntry0).ret = -FI_EAGAIN ∧
    (efa_cq_readerr cqSticky errEntry0).ret = sizeof_fi_cq_err_entry ∧
    (efa_cq_readerr cqSticky errEntry0).entry.op_context = 7 := by
  have h1 := (C4_readerr_contract cqOne errEntry0).1.mpr (by decide)
  have h2 := (C4_readerr_contract cqSticky errEntry0).2.2 (by decide)
  refine ⟨h1, h2.2.2.2.2.2, ?_⟩
  rw [h2.1]
  decide

/-! ### Claim C5 -/

/-- C5 counterexample: after `efa_cq_readerr` successfully returns a
detailed record, a second call on the resulting state (no new fault) again
returns the full record size, not `-FI_EAGAIN`: the pending error is not
cleared. -/
theorem C5_counterexample_error_not_cleared :
    (efa_cq_readerr (efa_cq_readerr cqSticky errEntry0).cq errEntry0).ret
        ≠ -FI_EAGAIN ∧
    (efa_cq_readerr (efa_cq_readerr cqSticky errEntry0).cq errEntry0).ret
        = sizeof_fi_cq_err_entry := by
  constructor <;> decide

/-- C5 (amended): `efa_cq_readerr` never clears the pending error — it
leaves the queue state unchanged, so extraction is repeatable rather than
once-only: a second call with no intervening fault behaves exactly like the
first (only the normal poll path moves past the fault). -/
theorem C5_amended_readerr_not_clearing :
    ∀ (cq : EfaCq) (e1 e2 : FiCqErrEntry),
      (efa_cq_readerr cq e1).cq = cq ∧
      efa_cq_readerr (efa_cq_readerr cq e1).cq e2 = efa_cq_readerr cq e2 := by
  intro cq e1 e2
  have hcq : (efa_cq_readerr cq e1).cq = cq := by
    by_cases h : cq.ibv_cq_ex.cur.status = 0
    · rw [readerr_no_error cq e1 h]
    · exact (readerr_pending_fields cq e1 h).2.2.2.2.2.2.1
  exact ⟨hcq, by rw [hcq]⟩

/-! ### Claim C6 -/

/-- C6: a Send completion maps to exactly `FI_SEND | FI_MSG`, a Receive
completion to exactly `FI_RECV | FI_MSG`, and under the precondition that
the opcode is one of these two the `assert(0)` branch for unknown opcodes
is not reached. -/
theorem C6_opcode_to_flags :
    ∀ op : IbvWcOpcode, op = IbvWcOpcode.send ∨ op = IbvWcOpcode.recv →
      (op = IbvWcOpcode.send →
        efa_cq_opcode_to_fi_flags op = (FI_SEND ||| FI_MSG)) ∧
      (op = IbvWcOpcode.recv →
        efa_cq_opcode_to_fi_flags op = (FI_RECV ||| FI_MSG)) ∧
      efa_cq_opcode_to_fi_flags_hits_assert op = false := by
  intro op h
  rcases h with h | h <;> subst h <;> refine ⟨?_, ?_, rfl⟩ <;> intro h2 <;>
    first
    | rfl
    | exact absurd h2 (by simp)

/-- C6 witness: evaluation at the Send opcode. -/
theorem C6_witness :
    efa_cq_opcode_to_fi_flags IbvWcOpcode.send = (FI_SEND ||| FI_MSG) ∧
    efa_cq_opcode_to_fi_flags_hits_assert IbvWcOpcode.send = false :=
  ⟨(C6_opcode_to_flags IbvWcOpcode.send (Or.inl rfl)).1 rfl,
    (C6_opcode_to_flags IbvWcOpcode.send (Or.inl rfl)).2.2⟩

/-! ### Claim C7 -/

/-- C7: `ibv_end_poll` is invoked exactly once when `ibv_start_poll`
succeeded (nonempty ring) and never when it failed (empty ring), on every
path; a capacity-0 call on a nonempty ring still performs exactly one
start/end pair while the loop body never executes (no entry read, no entry
consumed, queue unchanged). -/
theorem C7_end_poll_pairing :
    ∀ (cq : EfaCq) (count : Nat) (ws : Bool) (av : Nat → Nat → Nat),
      (cq.ibv_cq_ex.pending ≠ [] →
        (efa_cq_readfrom cq count ws av).events.count Ev.endPoll = 1 ∧
        (efa_cq_readfrom cq count ws av).events.count (Ev.startPoll true)
            = 1) ∧
      (cq.ibv_cq_ex.pending = [] →
        (efa_cq_readfrom cq count ws av).events.count Ev.endPoll = 0) ∧
      (count = 0 → cq.ibv_cq_ex.pending ≠ [] →
        (efa_cq_readfrom cq count ws av).events
            = [Ev.lock, Ev.startPoll true, Ev.endPoll, Ev.unlock] ∧
        (efa_cq_readfrom cq count ws av).buf = [] ∧
        (efa_cq_readfrom cq count ws av).cq = cq) := by
  intro cq count ws av
  obtain ⟨⟨p, c⟩, re, es, api⟩ := cq
  dsimp only
  cases p with
  | nil =>
    refine ⟨fun h => absurd rfl h, fun _ => ?_, fun _ h => absurd rfl h⟩
    simp [efa_cq_readfrom]
  | cons wc rest =>
    have hz1 := poll_loop_count_eq_zero (readEntryFn re) ws av count
      (wc :: rest) 0 Ev.endPoll (by simp) (by simp)
    have hz2 := poll_loop_count_eq_zero (readEntryFn re) ws av count
      (wc :: rest) 0 (Ev.startPoll true) (by simp) (by simp)
    refine ⟨fun _ => ?_, fun h => absurd h (by simp), fun hc0 _ => ?_⟩
    · simp only [efa_cq_readfrom]
      constructor
      · simp [List.count_append, List.count_cons, hz1]
      · simp [List.count_append, List.count_cons, hz2]
    · subst hc0
      have hr0 : efa_cq_poll_loop (readEntryFn re) ws av 0 (wc :: rest) 0
          = ⟨0, 0, [], [], 0, []⟩ := by
        rw [poll_loop_cons_eq, if_neg (by omega)]
      simp [efa_cq_readfrom, hr0]

/-- C7 witness: a capacity-0 read on a one-entry ring performs exactly one
start/end pair; a read on an empty ring never calls end. -/
theorem C7_witness :
    (efa_cq_readfrom cqOne 0 false avZero).events
        = [Ev.lock, Ev.startPoll true, Ev.endPoll, Ev.unlock] ∧
    (efa_cq_readfrom cqEmpty 3 false avZero).events.count Ev.endPoll = 0 := by
  have h1 := (C7_end_poll_pairing cqOne 0 false avZero).2.2 rfl (by decide)
  have h2 := (C7_end_poll_pairing cqEmpty 3 false avZero).2.1 rfl
  exact ⟨h1.1, h2⟩

/-! ### Claim C8 -/

/-- C8: `efa_cq_open` rejects the tagged layout and every out-of-enum
layout with `-FI_ENOSYS`; rejects any non-`FI_WAIT_NONE` wait object with
`-FI_ENOSYS` before performing any allocation (empty event trace); replaces
a requested size of 0 by `EFA_DEF_CQ_SIZE`; and binds exactly one
formatter/entry-size pair determined by the requested layout. -/
theorem C8_open_contract :
    ∀ (attr : FiCqAttr) (ext : OpenExternals),
      (attr.wait_obj ≠ FiWaitObj.none →
        efa_cq_open attr ext = (-FI_ENOSYS, none, [])) ∧
      (ext.calloc_ok = true → ext.cq_init_ret = 0 → ext.create_cq_ok = true →
        ext.bufpool_ret = 0 →
        ((attr.format = FiCqFormat.tagged ∨
            (∃ n, attr.format = FiCqFormat.invalid n)) →
          (efa_cq_open attr ext).1 = -FI_ENOSYS ∧
          (efa_cq_open attr ext).2.1 = none) ∧
        (attr.wait_obj = FiWaitObj.none →
          ((attr.format = FiCqFormat.unspec ∨
              attr.format = FiCqFormat.context) →
            (efa_cq_open attr ext).2.1
                = some ⟨(if attr.size = 0 then EFA_DEF_CQ_SIZE else attr.size),
                    EntryLayout.context, sizeof_fi_cq_entry⟩) ∧
          (attr.format = FiCqFormat.msg →
            (efa_cq_open attr ext).2.1
                = some ⟨(if attr.size = 0 then EFA_DEF_CQ_SIZE else attr.size),
                    EntryLayout.msg, sizeof_fi_cq_msg_entry⟩) ∧
          (attr.format = FiCqFormat.data →
            (efa_cq_open attr ext).2.1
                = some ⟨(if attr.size = 0 then EFA_DEF_CQ_SIZE else attr.size),
                    EntryLayout.data, sizeof_fi_cq_data_entry⟩))) := by
  intro attr ext
  obtain ⟨size, format, wait⟩ := attr
  obtain ⟨cal, ini, crt, bufr⟩ := ext
  dsimp only
  refine ⟨?_, ?_⟩
  · intro hw
    simp only [efa_cq_open]
    rw [if_pos hw]
  · intro hcal hini hcrt hbuf
    subst hcal
    subst hini
    subst hcrt
    subst hbuf
    refine ⟨?_, ?_⟩
    · rintro (hf | ⟨n, hf⟩) <;> subst hf <;>
        by_cases hw : wait = FiWaitObj.none <;>
        simp [efa_cq_open, hw]
    · intro hw
      subst hw
      refine ⟨?_, ?_, ?_⟩
      · rintro (hf | hf) <;> subst hf <;>
          by_cases hs : size = 0 <;> simp [efa_cq_open, hs]
      · intro hf
        subst hf
        by_cases hs : size = 0 <;> simp [efa_cq_open, hs]
      · intro hf
        subst hf
        by_cases hs : size = 0 <;> simp [efa_cq_open, hs]

/-- C8 witness: tagged layout is rejected, a blocking wait object is
rejected with no allocation, and size 0 becomes `EFA_DEF_CQ_SIZE` with the
msg layout bound. -/
theorem C8_witness :
    (efa_cq_open ⟨0, FiCqFormat.tagged, FiWaitObj.none⟩
        ⟨true, 0, true, 0⟩).1 = -FI_ENOSYS ∧
    efa_cq_open ⟨4, FiCqFormat.msg, FiWaitObj.other 1⟩ ⟨true, 0, true, 0⟩
        = (-FI_ENOSYS, none, []) ∧
    (efa_cq_open ⟨0, FiCqFormat.msg, FiWaitObj.none⟩
        ⟨true, 0, true, 0⟩).2.1
        = some ⟨EFA_DEF_CQ_SIZE, EntryLayout.msg, sizeof_fi_cq_msg_entry⟩ := by
  have h1 := C8_open_contract ⟨0, FiCqFormat.tagged, FiWaitObj.none⟩
    ⟨true, 0, true, 0⟩
  have h2 := C8_open_contract ⟨4, FiCqFormat.msg, FiWaitObj.other 1⟩
    ⟨true, 0, true, 0⟩
  have h3 := C8_open_contract ⟨0, FiCqFormat.msg, FiWaitObj.none⟩
    ⟨true, 0, true, 0⟩
  refine ⟨((h1.2 rfl rfl rfl rfl).1 (Or.inl rfl)).1, h2.1 (by decide), ?_⟩
  have h4 := ((h3.2 rfl rfl rfl rfl).2 rfl).2.1 rfl
  rw [h4]
  decide

/-! ### Claim C9 -/

/-- C9: when `ibv_destroy_cq` fails during `efa_cq_close`, the call returns
the negated failure to the caller, the queue object is not freed, and the
wce pool and the lock have already been destroyed, in that order, before
the ring destruction was attempted. -/
theorem C9_close_on_destroy_failure :
    ∀ destroy_cq_ret cleanup_ret : Int, destroy_cq_ret ≠ 0 →
      (efa_cq_close destroy_cq_ret cleanup_ret).1 = -destroy_cq_ret ∧
      (efa_cq_close destroy_cq_ret cleanup_ret).2
          = [CloseEv.bufpoolDestroy, CloseEv.spinDestroy,
              CloseEv.destroyCq] ∧
      CloseEv.freeCq ∉ (efa_cq_close destroy_cq_ret cleanup_ret).2 := by
  intro r1 r2 h
  have hne : -r1 ≠ 0 := by omega
  simp only [efa_cq_close]
  rw [if_pos hne]
  exact ⟨rfl, rfl, by simp⟩

/-- C9 witness: a destroy failure with errno 5 is surfaced as -5, with the
pool and lock torn down first and the queue object never freed. -/
theorem C9_witness :
    (efa_cq_close 5 0).1 = -5 ∧
    CloseEv.freeCq ∉ (efa_cq_close 5 0).2 := by
  have h := C9_close_on_destroy_failure 5 0 (by decide)
  exact ⟨h.1, h.2.2⟩

/-! ### Claim C10 -/

/-- C10: every execution path of `efa_cq_readfrom` and `efa_cq_readerr`
acquires the queue spinlock exactly once and releases it exactly once, in
that order (the lock-event subsequence of every trace is precisely
lock-then-unlock), so no path returns while still holding the lock. -/
theorem C10_lock_discipline :
    ∀ (cq : EfaCq) (count : Nat) (ws : Bool) (av : Nat → Nat → Nat)
      (entry : FiCqErrEntry),
      (efa_cq_readfrom cq count ws av).events.filter isLockEv
          = [Ev.lock, Ev.unlock] ∧
      (efa_cq_readerr cq entry).events.filter isLockEv
          = [Ev.lock, Ev.unlock] := by
  intro cq count ws av entry
  constructor
  · obtain ⟨⟨p, c⟩, re, es, api⟩ := cq
    cases p with
    | nil => simp [efa_cq_readfrom, isLockEv]
    | cons wc rest =>
      have hf := poll_loop_filter_lock (readEntryFn re) ws av count
        (wc :: rest) 0
      simp only [efa_cq_readfrom]
      simp [List.filter_append, hf, isLockEv]
  · by_cases h : cq.ibv_cq_ex.cur.status = 0
    · rw [readerr_no_error cq entry h]
      simp [isLockEv]
    · rw [(readerr_pending_fields cq entry h).2.2.2.2.2.2.2]
      simp [isLockEv]

end EfaCqModel
